import Mathlib

/-!
A verification development for the pkg_summary(5) parser in
`src/summary.rs` (`Summary`, `SummaryStream`).

The Rust code is shallowly embedded at the byte level: the stream buffer is
a `List Nat` of bytes, panics (`unwrap`, `panic!`, out-of-bounds indexing)
are modelled by `Option`/dedicated result constructors, and `i64` parsing is
modelled on `Int` with the explicit two's-complement bounds.  All splitting
in the Rust code happens on ASCII delimiters (`"\n\n"`, `'='`, `'-'`,
`'\n'`), which occur in valid UTF-8 only as single-byte characters, so the
`str`-level searches of the source coincide with byte-level searches; UTF-8
decoding itself is modelled by a validity checker mirroring the acceptance
set of `std::str::from_utf8`.
-/

namespace PkgsrcSummary

/-- ASCII/UTF-8 bytes of a string literal (used only for ASCII literals). -/
def bytes (s : String) : List Nat := s.data.map Char.toNat

/-- One pkg_summary(5) entry, mirroring `struct Summary` in summary.rs.
Rust `String` fields are byte lists, `Vec<String>` are lists of byte lists,
`Option<i64>` is `Option Int`. -/
structure Summary where
  automatic : Option Int := none
  build_date : List Nat := []
  categories : List (List Nat) := []
  comment : List Nat := []
  conflicts : List (List Nat) := []
  depends : List (List Nat) := []
  description : List (List Nat) := []
  file_cksum : Option (List Nat) := none
  file_name : Option (List Nat) := none
  file_size : Option Int := none
  homepage : Option (List Nat) := none
  license : Option (List Nat) := none
  machine_arch : List Nat := []
  opsys : List Nat := []
  os_version : List Nat := []
  pkg_options : Option (List Nat) := none
  pkgbase : List Nat := []
  pkgname : List Nat := []
  pkgpath : List Nat := []
  pkgtools_version : List Nat := []
  pkgversion : List Nat := []
  prev_pkgpath : Option (List Nat) := none
  provides : List (List Nat) := []
  requires : List (List Nat) := []
  size_pkg : Option Int := none
  supersedes : List (List Nat) := []
deriving DecidableEq

/-- `Summary::new()`: all fields at their default values. -/
def Summary.new : Summary := {}

/-- The recognized pkg_summary(5) keys (the arms of the `match` in
`Summary::parse_entry`). -/
inductive FieldKey where
  | BUILD_DATE
  | CATEGORIES
  | COMMENT
  | CONFLICTS
  | DEPENDS
  | DESCRIPTION
  | FILE_CKSUM
  | FILE_NAME
  | FILE_SIZE
  | HOMEPAGE
  | LICENSE
  | MACHINE_ARCH
  | OPSYS
  | OS_VERSION
  | PKG_OPTIONS
  | PKGNAME
  | PKGPATH
  | PKGTOOLS_VERSION
  | PREV_PKGPATH
  | PROVIDES
  | REQUIRES
  | SIZE_PKG
  | SUPERSEDES
deriving DecidableEq

/-- Exact-match key dispatch of `Summary::parse_entry`; `none` is the `_`
arm (`Err("Unhandled key")`). -/
def keyOf (k : List Nat) : Option FieldKey :=
  if k = bytes ("BUILD_DATE") then some FieldKey.BUILD_DATE
  else if k = bytes ("CATEGORIES") then some FieldKey.CATEGORIES
  else if k = bytes ("COMMENT") then some FieldKey.COMMENT
  else if k = bytes ("CONFLICTS") then some FieldKey.CONFLICTS
  else if k = bytes ("DEPENDS") then some FieldKey.DEPENDS
  else if k = bytes ("DESCRIPTION") then some FieldKey.DESCRIPTION
  else if k = bytes ("FILE_CKSUM") then some FieldKey.FILE_CKSUM
  else if k = bytes ("FILE_NAME") then some FieldKey.FILE_NAME
  else if k = bytes ("FILE_SIZE") then some FieldKey.FILE_SIZE
  else if k = bytes ("HOMEPAGE") then some FieldKey.HOMEPAGE
  else if k = bytes ("LICENSE") then some FieldKey.LICENSE
  else if k = bytes ("MACHINE_ARCH") then some FieldKey.MACHINE_ARCH
  else if k = bytes ("OPSYS") then some FieldKey.OPSYS
  else if k = bytes ("OS_VERSION") then some FieldKey.OS_VERSION
  else if k = bytes ("PKG_OPTIONS") then some FieldKey.PKG_OPTIONS
  else if k = bytes ("PKGNAME") then some FieldKey.PKGNAME
  else if k = bytes ("PKGPATH") then some FieldKey.PKGPATH
  else if k = bytes ("PKGTOOLS_VERSION") then some FieldKey.PKGTOOLS_VERSION
  else if k = bytes ("PREV_PKGPATH") then some FieldKey.PREV_PKGPATH
  else if k = bytes ("PROVIDES") then some FieldKey.PROVIDES
  else if k = bytes ("REQUIRES") then some FieldKey.REQUIRES
  else if k = bytes ("SIZE_PKG") then some FieldKey.SIZE_PKG
  else if k = bytes ("SUPERSEDES") then some FieldKey.SUPERSEDES
  else none

/-- `value.parse::<i64>()`: an optional sign followed by at least one ASCII
digit, within the `i64` range (the explicit two's-complement bounds). -/
def parseI64 (v : List Nat) : Option Int :=
  let digits : List Nat → Option Int := fun ds =>
    if ds ≠ [] ∧ ds.all (fun b => 48 ≤ b ∧ b ≤ 57) then
      some (Int.ofNat (ds.foldl (fun a b => a * 10 + (b - 48)) 0))
    else none
  match v with
  | 43 :: ds =>
    match digits ds with
    | some n => if n ≤ 2 ^ 63 - 1 then some n else none
    | none => none
  | 45 :: ds =>
    match digits ds with
    | some n => if n ≤ 2 ^ 63 then some (-n) else none
    | none => none
  | ds =>
    match digits ds with
    | some n => if n ≤ 2 ^ 63 - 1 then some n else none
    | none => none

/-- `value.rsplitn(2, '-')` as used for `PKGNAME`: split at the last `'-'`
(byte 45); `none` when the value has no separator (where the Rust code's
`v[1]` panics). -/
def splitLastDash : List Nat → Option (List Nat × List Nat)
  | [] => none
  | b :: rest =>
    match splitLastDash rest with
    | some (p, q) => some (b :: p, q)
    | none => if b = 45 then some ([], rest) else none

/-- Outcome of `Summary::parse_entry`: `Ok(())` with the mutated summary,
`Err("Unhandled key")` (summary untouched), or a panic (`unwrap` on a bad
integer, `v[1]` on a `PKGNAME` without a separator). -/
inductive EntryResult where
  | ok (s : Summary)
  | unhandled
  | panicked
deriving DecidableEq

/-- The action of one `match` arm of `Summary::parse_entry` for a
recognized key. -/
def applyKey (s : Summary) (fk : FieldKey) (value : List Nat) : EntryResult :=
  match fk with
  | FieldKey.BUILD_DATE => EntryResult.ok { s with build_date := value }
  | FieldKey.CATEGORIES =>
    EntryResult.ok { s with categories := s.categories ++ [value] }
  | FieldKey.COMMENT => EntryResult.ok { s with comment := value }
  | FieldKey.CONFLICTS =>
    EntryResult.ok { s with conflicts := s.conflicts ++ [value] }
  | FieldKey.DEPENDS =>
    EntryResult.ok { s with depends := s.depends ++ [value] }
  | FieldKey.DESCRIPTION =>
    EntryResult.ok { s with description := s.description ++ [value] }
  | FieldKey.FILE_CKSUM => EntryResult.ok { s with file_cksum := some value }
  | FieldKey.FILE_NAME => EntryResult.ok { s with file_name := some value }
  | FieldKey.FILE_SIZE =>
    match parseI64 value with
    | some n => EntryResult.ok { s with file_size := some n }
    | none => EntryResult.panicked
  | FieldKey.HOMEPAGE => EntryResult.ok { s with homepage := some value }
  | FieldKey.LICENSE => EntryResult.ok { s with license := some value }
  | FieldKey.MACHINE_ARCH => EntryResult.ok { s with machine_arch := value }
  | FieldKey.OPSYS => EntryResult.ok { s with opsys := value }
  | FieldKey.OS_VERSION => EntryResult.ok { s with os_version := value }
  | FieldKey.PKG_OPTIONS => EntryResult.ok { s with pkg_options := some value }
  | FieldKey.PKGNAME =>
    match splitLastDash value with
    | some (p, q) =>
      EntryResult.ok { s with pkgname := value, pkgbase := p, pkgversion := q }
    | none => EntryResult.panicked
  | FieldKey.PKGPATH => EntryResult.ok { s with pkgpath := value }
  | FieldKey.PKGTOOLS_VERSION =>
    EntryResult.ok { s with pkgtools_version := value }
  | FieldKey.PREV_PKGPATH =>
    EntryResult.ok { s with prev_pkgpath := some value }
  | FieldKey.PROVIDES =>
    EntryResult.ok { s with provides := s.provides ++ [value] }
  | FieldKey.REQUIRES =>
    EntryResult.ok { s with requires := s.requires ++ [value] }
  | FieldKey.SIZE_PKG =>
    match parseI64 value with
    | some n => EntryResult.ok { s with size_pkg := some n }
    | none => EntryResult.panicked
  | FieldKey.SUPERSEDES =>
    EntryResult.ok { s with supersedes := s.supersedes ++ [value] }

/-- `Summary::parse_entry(key, value)`. -/
def Summary.parse_entry (s : Summary) (key value : List Nat) : EntryResult :=
  match keyOf key with
  | none => EntryResult.unhandled
  | some fk => applyKey s fk value

/-- `Summary::set_automatic()`. -/
def Summary.set_automatic (s : Summary) : Summary := { s with automatic := some 1 }

/-- `Summary::validate()`: pass/fail of the required-field checks, in the
order of the source. -/
def Summary.validate (s : Summary) : Bool :=
  !s.build_date.isEmpty && !s.categories.isEmpty && !s.comment.isEmpty &&
  !s.description.isEmpty && !s.machine_arch.isEmpty && !s.opsys.isEmpty &&
  !s.os_version.isEmpty && !s.pkgname.isEmpty && !s.pkgpath.isEmpty &&
  !s.pkgtools_version.isEmpty && s.size_pkg.isSome

/-- The byte ranges a multi-byte lead byte still expects, per the
well-formed-UTF-8 table of RFC 3629 that `std::str::from_utf8` implements:
a two-byte lead (0xC2–0xDF) expects one continuation byte in 0x80–0xBF; a
three-byte lead expects a restricted second byte (0xA0–0xBF after 0xE0,
excluding overlongs; 0x80–0x9F after 0xED, excluding surrogates) and one
continuation; a four-byte lead expects a restricted second byte (0x90–0xBF
after 0xF0; 0x80–0x8F after 0xF4, excluding values above U+10FFFF) and two
continuations. -/
def utf8Pending (b : Nat) : List (Nat × Nat) :=
  if b ≤ 223 then [(128, 191)]
  else if b ≤ 239 then
    [(if b = 224 then 160 else 128, if b = 237 then 159 else 191),
     (128, 191)]
  else
    [(if b = 240 then 144 else 128, if b = 244 then 143 else 191),
     (128, 191), (128, 191)]

/-- UTF-8 validation automaton: the first argument lists the byte ranges
still expected for the current multi-byte character (empty at a character
boundary); a lead byte below 0x80 stands alone, bytes 0x80–0xC1 cannot
start a character (continuation bytes and overlong 0xC0/0xC1 leads), leads
0xC2–0xF4 push their expected ranges, and bytes above 0xF4 are invalid.
The input is accepted only if it ends at a character boundary. -/
def vAux : List (Nat × Nat) → List Nat → Bool
  | pend, [] => pend.isEmpty
  | (lo, hi) :: pend, b :: rest => (lo ≤ b && b ≤ hi) && vAux pend rest
  | [], b :: rest =>
    if b ≤ 127 then vAux [] rest
    else if b < 194 then false
    else if b ≤ 244 then vAux (utf8Pending b) rest
    else false

/-- Whether a byte list is valid UTF-8, with exactly the acceptance set of
`std::str::from_utf8`. -/
def validUtf8 (l : List Nat) : Bool := vAux [] l

/-- Whether a byte list contains no `"\n\n"` (bytes `[10, 10]`) substring. -/
def noNN : List Nat → Bool
  | [] => true
  | [_] => true
  | b0 :: b1 :: rest => !(b0 = 10 && b1 = 10) && noNN (b1 :: rest)

/-- `s.rfind("\n\n")` followed by `s.get(0..last + 2)`: the prefix up to and
including the last blank-line delimiter, and the remainder after it;
`none` when there is no delimiter. -/
def takeToLastNN : List Nat → Option (List Nat × List Nat)
  | [] => none
  | [_] => none
  | b0 :: b1 :: rest =>
    match takeToLastNN (b1 :: rest) with
    | some (p, r) => some (b0 :: p, r)
    | none => if b0 = 10 ∧ b1 = 10 then some ([10, 10], rest) else none

/-- `str::split("\n\n")`: greedy left-to-right split on the blank-line
delimiter (always at least one piece). -/
def splitNNCore : List Nat → List (List Nat)
  | [] => [[]]
  | [b] => [[b]]
  | b0 :: b1 :: rest =>
    if b0 = 10 ∧ b1 = 10 then [] :: splitNNCore rest
    else
      match splitNNCore (b1 :: rest) with
      | p :: ps => (b0 :: p) :: ps
      | [] => [[b0]]

/-- Drop a trailing empty piece (the extra behavior of `split_terminator`
over `split`, and of `lines` over splitting on `'\n'`). -/
def dropLastEmpty (ps : List (List Nat)) : List (List Nat) :=
  if ps.getLast? = some [] then ps.dropLast else ps

/-- `str::split_terminator("\n\n")` as used on the complete-record prefix. -/
def splitTermNN (l : List Nat) : List (List Nat) := dropLastEmpty (splitNNCore l)

/-- `str::split('\n')`: split on byte 10 (always at least one piece). -/
def splitNlCore : List Nat → List (List Nat)
  | [] => [[]]
  | b :: rest =>
    if b = 10 then [] :: splitNlCore rest
    else
      match splitNlCore rest with
      | p :: ps => (b :: p) :: ps
      | [] => [[b]]

/-- Strip one trailing `'\r'` (byte 13), as `str::lines` does per line. -/
def stripCR (l : List Nat) : List Nat :=
  if l.getLast? = some 13 then l.dropLast else l

/-- `str::lines()`: split on `'\n'`, drop one trailing empty line, strip a
trailing `'\r'` from each line. -/
def linesOf (l : List Nat) : List (List Nat) :=
  (dropLastEmpty (splitNlCore l)).map stripCR

/-- `line.splitn(2, '=')` as used in `SummaryStream::write`: key and value
split at the first `'='` (byte 61); `none` when the line has no `'='`
(where the Rust code panics on `val.is_none()`). -/
def splitFirstEq : List Nat → Option (List Nat × List Nat)
  | [] => none
  | b :: rest =>
    if b = 61 then some ([], rest)
    else
      match splitFirstEq rest with
      | some (k, v) => some (b :: k, v)
      | none => none

/-- The per-line loop of `SummaryStream::write` over one record: split each
line at `'='`, dispatch through `parse_entry` (an `Err` is printed and
skipped), `none` on any panic. -/
def processLines (s : Summary) : List (List Nat) → Option Summary
  | [] => some s
  | line :: rest =>
    match splitFirstEq line with
    | none => none
    | some (k, v) =>
      match s.parse_entry k v with
      | EntryResult.ok s2 => processLines s2 rest
      | EntryResult.unhandled => processLines s rest
      | EntryResult.panicked => none

/-- Parse one record's text into a `Summary` starting from
`Summary::new()`; `none` on a panic. -/
def processRecord (rec : List Nat) : Option Summary :=
  processLines Summary.new (linesOf rec)

/-- The per-record loop of `SummaryStream::write`: parse each record, keep
it when `validate` passes, discard it (with a printed diagnostic)
otherwise; `none` on a panic. -/
def processRecords (es : List Summary) : List (List Nat) → Option (List Summary)
  | [] => some es
  | rec :: rest =>
    match processRecord rec with
    | none => none
    | some sum =>
      processRecords (if sum.validate then es ++ [sum] else es) rest

/-- `struct SummaryStream`: the unconsumed byte buffer and the accumulated
valid entries. -/
structure SummaryStream where
  buf : List Nat := []
  entries : List Summary := []
deriving DecidableEq

/-- `SummaryStream::new()`. -/
def SummaryStream.new : SummaryStream := {}

/-- The body of `SummaryStream::write` after the incoming bytes have been
appended to the buffer: check UTF-8 validity (`panic!` otherwise, modelled
as `none`), find the last blank-line delimiter (if none, keep the whole
buffer), parse the complete-record prefix, and retain the remainder as the
new buffer (`self.buf.split_off(input_string.len())`). -/
def writeCore (buf : List Nat) (es : List Summary) : Option SummaryStream :=
  if validUtf8 buf then
    match takeToLastNN buf with
    | none => some { buf := buf, entries := es }
    | some (pre, rest) =>
      (processRecords es (splitTermNN pre)).map
        (fun es2 => { buf := rest, entries := es2 })
  else none

/-- `SummaryStream::write(input)`: append the input to the buffer, run
`writeCore`, and report all supplied bytes as consumed; `none` models a
panic. -/
def SummaryStream.write (st : SummaryStream) (input : List Nat) :
    Option (SummaryStream × Nat) :=
  (writeCore (st.buf ++ input) st.entries).map (fun st2 => (st2, input.length))

/-- A sequence of `write` calls, one per chunk; `none` as soon as one
panics. -/
def runWrites (st : SummaryStream) : List (List Nat) → Option SummaryStream
  | [] => some st
  | c :: cs =>
    match st.write c with
    | none => none
    | some (st2, _) => runWrites st2 cs

/-- Sample record used in witnesses: all required fields set and
`SIZE_PKG=0`. -/
def recSized : List Nat :=
  bytes ("BUILD_DATE=d\nCATEGORIES=c\nCOMMENT=c\nDESCRIPTION=x\nMACHINE_ARCH=m\nOPSYS=o\nOS_VERSION=v\nPKGNAME=a-1\nPKGPATH=p\nPKGTOOLS_VERSION=t\nSIZE_PKG=0")

/-- The same record with the `SIZE_PKG` line removed. -/
def recUnsized : List Nat :=
  bytes ("BUILD_DATE=d\nCATEGORIES=c\nCOMMENT=c\nDESCRIPTION=x\nMACHINE_ARCH=m\nOPSYS=o\nOS_VERSION=v\nPKGNAME=a-1\nPKGPATH=p\nPKGTOOLS_VERSION=t")

/-- The `Summary` that parsing `recSized` produces. -/
def sampleSummary : Summary :=
  { Summary.new with
    build_date := bytes ("d")
    categories := [bytes ("c")]
    comment := bytes ("c")
    description := [bytes ("x")]
    machine_arch := bytes ("m")
    opsys := bytes ("o")
    os_version := bytes ("v")
    pkgname := bytes ("a-1")
    pkgbase := bytes ("a")
    pkgversion := bytes ("1")
    pkgpath := bytes ("p")
    pkgtools_version := bytes ("t")
    size_pkg := some 0 }

theorem splitFirstEq_of_no_eq (k v : List Nat) (hk : ∀ b ∈ k, b ≠ 61) :
    splitFirstEq (k ++ 61 :: v) = some (k, v) := by
  induction k with
  | nil => simp [splitFirstEq]
  | cons b k ih =>
    have hb : b ≠ 61 := hk b (by simp)
    have ih2 := ih (fun x hx => hk x (by simp [hx]))
    simp [splitFirstEq, hb, ih2]

theorem splitLastDash_of_no_dash (v : List Nat) (hv : ∀ b ∈ v, b ≠ 45) :
    splitLastDash v = none := by
  induction v with
  | nil => simp [splitLastDash]
  | cons b v ih =>
    have hb : b ≠ 45 := hv b (by simp)
    have ih2 := ih (fun x hx => hv x (by simp [hx]))
    simp [splitLastDash, hb, ih2]

theorem splitLastDash_last (p q : List Nat) (hq : ∀ b ∈ q, b ≠ 45) :
    splitLastDash (p ++ 45 :: q) = some (p, q) := by
  induction p with
  | nil => simp [splitLastDash, splitLastDash_of_no_dash q hq]
  | cons b p ih => simp [splitLastDash, ih]

/-- Claim C2: dispatching `FILE_SIZE` or `SIZE_PKG` with a value that does
not parse as a 64-bit signed integer does not leave the field unset and
continue; it hits `vali64.unwrap()` and panics, aborting the process. -/
theorem integer_field_panics (s : Summary) :
    s.parse_entry (bytes ("FILE_SIZE")) (bytes ("abc")) = EntryResult.panicked ∧
    s.parse_entry (bytes ("SIZE_PKG")) (bytes ("abc")) = EntryResult.panicked :=
  ⟨rfl, rfl⟩

/-- Claim C3: dispatching `PKGNAME` with a value containing no `'-'` is not
a recoverable error; the `v[1]` index into the `rsplitn` result panics. -/
theorem pkgname_no_dash_panics (s : Summary) (v : List Nat)
    (hv : ∀ b ∈ v, b ≠ 45) :
    s.parse_entry (bytes ("PKGNAME")) v = EntryResult.panicked := by
  have hk : keyOf (bytes ("PKGNAME")) = some FieldKey.PKGNAME := by decide
  simp [Summary.parse_entry, hk, applyKey, splitLastDash_of_no_dash v hv]

/-- Witness for `pkgname_no_dash_panics` at the concrete value `foo`. -/
theorem pkgname_no_dash_panics_witness :
    Summary.new.parse_entry (bytes ("PKGNAME")) (bytes ("foo")) =
      EntryResult.panicked :=
  pkgname_no_dash_panics Summary.new (bytes ("foo")) (by decide)

/-- Claim C4: a line with no `'='` inside a complete record does not
discard just that record and continue; `write` panics. -/
theorem malformed_line_panics :
    SummaryStream.new.write (bytes ("FOO\n\n")) = none := by decide

/-- Claim C5: when the accumulated buffer is not valid UTF-8, `write` does
not report a recoverable failure; it panics, aborting the host process. -/
theorem invalid_encoding_panics :
    SummaryStream.new.write [255] = none := by decide

/-- Claim C6: an unrecognized key yields the recoverable `Unhandled key`
error, the record is left unchanged, and the remaining lines are processed
as if the unknown line were absent. -/
theorem unknown_key_recoverable (s : Summary) (k v : List Nat)
    (rest : List (List Nat)) (hk : keyOf k = none) (he : ∀ b ∈ k, b ≠ 61) :
    s.parse_entry k v = EntryResult.unhandled ∧
    processLines s ((k ++ 61 :: v) :: rest) = processLines s rest := by
  constructor
  · simp [Summary.parse_entry, hk]
  · simp [processLines, splitFirstEq_of_no_eq k v he, Summary.parse_entry, hk]

/-- Witness for `unknown_key_recoverable` with key `EXTRA_FIELD`. -/
theorem unknown_key_recoverable_witness :
    Summary.new.parse_entry (bytes ("EXTRA_FIELD")) (bytes ("x")) =
      EntryResult.unhandled ∧
    processLines Summary.new ((bytes ("EXTRA_FIELD") ++ 61 :: bytes ("x")) ::
        [bytes ("COMMENT=c")]) =
      processLines Summary.new [bytes ("COMMENT=c")] :=
  unknown_key_recoverable Summary.new (bytes ("EXTRA_FIELD")) (bytes ("x"))
    [bytes ("COMMENT=c")] (by decide) (by decide)

/-- Claim C7: validation distinguishes an explicit `SIZE_PKG=0` from an
absent `SIZE_PKG`: the record with the `SIZE_PKG=0` line validates, the
otherwise identical record without it does not. -/
theorem size_pkg_zero_vs_absent :
    (processRecord recSized).map Summary.validate = some true ∧
    (processRecord recUnsized).map Summary.validate = some false := by decide

/-- Claim C8: a `PKGNAME` value with at least one `'-'` is split at the
last `'-'`: everything before it becomes `pkgbase`, the suffix after it
becomes `pkgversion`, and the full value is stored verbatim in `pkgname`. -/
theorem pkgname_split_last (s : Summary) (p q : List Nat)
    (hq : ∀ b ∈ q, b ≠ 45) :
    s.parse_entry (bytes ("PKGNAME")) (p ++ 45 :: q) =
      EntryResult.ok
        { s with pkgname := p ++ 45 :: q, pkgbase := p, pkgversion := q } := by
  have hk : keyOf (bytes ("PKGNAME")) = some FieldKey.PKGNAME := by decide
  simp [Summary.parse_entry, hk, applyKey, splitLastDash_last p q hq]

/-- Witness for `pkgname_split_last`: `pkgtest-1.0` gives base `pkgtest`
and version `1.0`. -/
theorem pkgname_split_last_witness :
    Summary.new.parse_entry (bytes ("PKGNAME"))
        (bytes ("pkgtest") ++ 45 :: bytes ("1.0")) =
      EntryResult.ok
        { Summary.new with
          pkgname := bytes ("pkgtest") ++ 45 :: bytes ("1.0")
          pkgbase := bytes ("pkgtest")
          pkgversion := bytes ("1.0") } :=
  pkgname_split_last Summary.new (bytes ("pkgtest")) (bytes ("1.0")) (by decide)

/-- Claim C9: a `write` call that returns reports the full input length as
consumed; when the accumulated buffer has no blank-line delimiter the
entries are unchanged and the whole buffer is retained, and otherwise the
new buffer is exactly the remainder after the last delimiter. -/
theorem write_consumes_all (st : SummaryStream) (input : List Nat)
    (st2 : SummaryStream) (n : Nat) (h : st.write input = some (st2, n)) :
    n = input.length ∧
    (takeToLastNN (st.buf ++ input) = none →
      st2 = { buf := st.buf ++ input, entries := st.entries }) ∧
    (∀ p r, takeToLastNN (st.buf ++ input) = some (p, r) → st2.buf = r) := by
  unfold SummaryStream.write writeCore at h
  by_cases hv : validUtf8 (st.buf ++ input) = true
  · rw [if_pos hv] at h
    rcases htl : takeToLastNN (st.buf ++ input) with _ | ⟨p, r⟩
    · simp only [htl, Option.map_some', Option.some.injEq, Prod.mk.injEq] at h
      obtain ⟨h1, h2⟩ := h
      exact ⟨h2.symm, fun _ => h1.symm, fun p r hpr => Option.noConfusion hpr⟩
    · rcases hpr : processRecords st.entries (splitTermNN p) with _ | es2
      · simp only [htl, hpr, Option.map_none'] at h
        exact Option.noConfusion h
      · simp only [htl, hpr, Option.map_some', Option.some.injEq,
          Prod.mk.injEq] at h
        obtain ⟨h1, h2⟩ := h
        refine ⟨h2.symm, fun hnone => Option.noConfusion hnone,
          fun p2 r2 hp2 => ?_⟩
        simp only [Option.some.injEq, Prod.mk.injEq] at hp2
        obtain ⟨hp, hr⟩ := hp2
        rw [← h1, ← hr]
  · simp [hv] at h

/-- Witness for `write_consumes_all` on the concrete input `A=B\n\n`. -/
theorem write_consumes_all_witness :
    5 = (bytes ("A=B\n\n")).length ∧
    (takeToLastNN (SummaryStream.new.buf ++ bytes ("A=B\n\n")) = none →
      ({ buf := [], entries := [] } : SummaryStream) =
        { buf := SummaryStream.new.buf ++ bytes ("A=B\n\n"),
          entries := SummaryStream.new.entries }) ∧
    (∀ p r, takeToLastNN (SummaryStream.new.buf ++ bytes ("A=B\n\n")) =
        some (p, r) →
      ({ buf := [], entries := [] } : SummaryStream).buf = r) :=
  write_consumes_all SummaryStream.new (bytes ("A=B\n\n"))
    { buf := [], entries := [] } 5 (by decide)

theorem processRecords_all_valid (ps : List (List Nat)) :
    ∀ es es2, processRecords es ps = some es2 →
      es.all Summary.validate = true → es2.all Summary.validate = true := by
  induction ps with
  | nil => intro es es2 h hv; cases h; exact hv
  | cons rec rest ih =>
    intro es es2 h hv
    unfold processRecords at h
    rcases hr : processRecord rec with _ | sum
    · rw [hr] at h; cases h
    · rw [hr] at h
      by_cases hval : sum.validate = true
      · refine ih (es ++ [sum]) es2 (by simpa [hval] using h) ?_
        simp [List.all_append, hv, hval]
      · exact ih es es2 (by simpa [hval] using h) hv

theorem write_all_valid (st : SummaryStream) (input : List Nat)
    (st2 : SummaryStream) (n : Nat) (h : st.write input = some (st2, n))
    (hv : st.entries.all Summary.validate = true) :
    st2.entries.all Summary.validate = true := by
  unfold SummaryStream.write writeCore at h
  by_cases hu : validUtf8 (st.buf ++ input) = true
  · rw [if_pos hu] at h
    rcases htl : takeToLastNN (st.buf ++ input) with _ | ⟨p, r⟩
    · simp only [htl, Option.map_some', Option.some.injEq, Prod.mk.injEq] at h
      rw [← h.1]; exact hv
    · rcases hpr : processRecords st.entries (splitTermNN p) with _ | es2
      · simp only [htl, hpr, Option.map_none'] at h
        exact Option.noConfusion h
      · simp only [htl, hpr, Option.map_some', Option.some.injEq,
          Prod.mk.injEq] at h
        rw [← h.1]
        exact processRecords_all_valid (splitTermNN p) st.entries es2 hpr hv
  · simp [hu] at h

/-- Claim C10: after any sequence of `write` calls on a fresh stream, every
`Summary` in the entries collection passes `validate`; records failing
validation are never inserted. -/
theorem entries_all_validate (chunks : List (List Nat)) (st2 : SummaryStream)
    (h : runWrites SummaryStream.new chunks = some st2) :
    st2.entries.all Summary.validate = true := by
  have main : ∀ cs (st st2 : SummaryStream),
      runWrites st cs = some st2 → st.entries.all Summary.validate = true →
      st2.entries.all Summary.validate = true := by
    intro cs
    induction cs with
    | nil => intro st st2 h hv; cases h; exact hv
    | cons c rest ih =>
      intro st st2 h hv
      unfold runWrites at h
      rcases hw : st.write c with _ | ⟨stA, n⟩
      · rw [hw] at h; cases h
      · rw [hw] at h
        exact ih stA st2 h (write_all_valid st c stA n hw hv)
  exact main chunks SummaryStream.new st2 h (by decide)

set_option maxRecDepth 8000 in
/-- Witness for `entries_all_validate`: a two-chunk run whose single
complete record is valid. -/
theorem entries_all_validate_witness :
    (SummaryStream.mk (bytes ("PKG")) [sampleSummary]).entries.all
      Summary.validate = true :=
  entries_all_validate [recSized ++ bytes ("\n\n"), bytes ("PKG")]
    (SummaryStream.mk (bytes ("PKG")) [sampleSummary]) (by decide)

theorem noNN_cons (b : Nat) (l : List Nat) (h : noNN (b :: l) = true) :
    noNN l = true := by
  cases l with
  | nil => rfl
  | cons c t =>
    simp only [noNN, Bool.and_eq_true] at h
    exact h.2

theorem takeToLastNN_eq_none (x : List Nat) :
    takeToLastNN x = none ↔ noNN x = true := by
  induction x with
  | nil => simp [takeToLastNN, noNN]
  | cons b0 t ih =>
    cases t with
    | nil => simp [takeToLastNN, noNN]
    | cons b1 rest =>
      rw [takeToLastNN, noNN]
      rcases h : takeToLastNN (b1 :: rest) with _ | ⟨p, r⟩
      · rw [h] at ih
        have hrest : noNN (b1 :: rest) = true := ih.mp rfl
        by_cases hb : b0 = 10 ∧ b1 = 10
        · obtain ⟨h0, h1⟩ := hb
          subst h0; subst h1
          simp
        · rcases not_and_or.mp hb with h' | h' <;> simp [h', hrest]
      · have hn : noNN (b1 :: rest) = false := by
          cases hnn : noNN (b1 :: rest)
          · rfl
          · rw [ih.mpr hnn] at h; exact Option.noConfusion h
        simp [hn]

theorem takeToLastNN_spec (x : List Nat) :
    ∀ p r, takeToLastNN x = some (p, r) →
      x = p ++ r ∧ (∃ q, p = q ++ [10, 10]) ∧ noNN r = true ∧
      r.head? ≠ some 10 := by
  induction x with
  | nil => intro p r h; exact Option.noConfusion h
  | cons b0 t ih =>
    cases t with
    | nil => intro p r h; exact Option.noConfusion h
    | cons b1 rest =>
      intro p r h
      rcases h1 : takeToLastNN (b1 :: rest) with _ | ⟨p1, r1⟩
      · rw [takeToLastNN, h1] at h
        by_cases hb : b0 = 10 ∧ b1 = 10
        · rw [if_pos hb] at h
          simp only [Option.some.injEq, Prod.mk.injEq] at h
          obtain ⟨hp, hr⟩ := h
          subst hp; subst hr
          obtain ⟨hb0, hb1⟩ := hb
          subst hb0; subst hb1
          have hnr : noNN (10 :: rest) = true := (takeToLastNN_eq_none _).mp h1
          refine ⟨rfl, ⟨[], rfl⟩, noNN_cons _ _ hnr, ?_⟩
          cases rest with
          | nil => simp
          | cons c t2 =>
            have hc : c ≠ 10 := by
              intro hceq
              subst hceq
              simp [noNN] at hnr
            simp [hc]
        · rw [if_neg hb] at h
          exact Option.noConfusion h
      · rw [takeToLastNN, h1] at h
        simp only [Option.some.injEq, Prod.mk.injEq] at h
        obtain ⟨hp, hr⟩ := h
        subst hp; subst hr
        obtain ⟨hx, ⟨q1, hq1⟩, hnr, hhd⟩ := ih p1 r1 h1
        exact ⟨by rw [hx]; rfl, ⟨b0 :: q1, by rw [hq1]; rfl⟩, hnr, hhd⟩

theorem takeToLastNN_construct (q r : List Nat) (hr : noNN r = true)
    (hh : r.head? ≠ some 10) :
    takeToLastNN ((q ++ [10, 10]) ++ r) = some (q ++ [10, 10], r) := by
  induction q with
  | nil =>
    have hinner : takeToLastNN (10 :: r) = none := by
      cases r with
      | nil => rfl
      | cons c t =>
        have hc : c ≠ 10 := by
          intro hc; exact hh (by simp [hc])
        have hnone : takeToLastNN (c :: t) = none :=
          (takeToLastNN_eq_none _).mpr hr
        rw [takeToLastNN, hnone, if_neg]
        intro hand
        exact hc hand.2
    show takeToLastNN (10 :: 10 :: r) = some ([10, 10], r)
    rw [takeToLastNN, hinner, if_pos ⟨rfl, rfl⟩]
  | cons a q1 ih =>
    have hne : (q1 ++ [10, 10]) ++ r ≠ [] := by
      simp
    obtain ⟨z0, z1, hz⟩ := List.exists_cons_of_ne_nil hne
    show takeToLastNN (a :: ((q1 ++ [10, 10]) ++ r)) = _
    rw [hz, takeToLastNN, ← hz, ih]
    rfl

theorem validUtf8_ascii_cons (b : Nat) (z : List Nat) (hb : b ≤ 127) :
    validUtf8 (b :: z) = validUtf8 z := by
  rw [validUtf8, validUtf8, vAux, if_pos hb]

theorem utf8Pending_lo (b : Nat) :
    ∀ x ∈ utf8Pending b, 128 ≤ x.1 := by
  intro x hx
  unfold utf8Pending at hx
  by_cases h1 : b ≤ 223
  · rw [if_pos h1] at hx
    simp only [List.mem_singleton] at hx
    subst hx
    omega
  · rw [if_neg h1] at hx
    by_cases h2 : b ≤ 239
    · rw [if_pos h2] at hx
      simp only [List.mem_cons, List.not_mem_nil, or_false] at hx
      rcases hx with hx | hx <;> subst hx
      · by_cases h3 : b = 224 <;> simp [h3]
      · omega
    · rw [if_neg h2] at hx
      simp only [List.mem_cons, List.not_mem_nil, or_false] at hx
      rcases hx with hx | hx | hx <;> subst hx
      · by_cases h3 : b = 240 <;> simp [h3]
      · omega
      · omega

theorem vAux_suffix :
    ∀ q pend r, (∀ x ∈ pend, 128 ≤ x.1) →
      vAux pend (q ++ 10 :: r) = true → validUtf8 r = true := by
  intro q
  induction q with
  | nil =>
    intro pend r hp h
    rcases pend with _ | ⟨⟨lo, hi⟩, pend⟩
    · rw [List.nil_append, vAux, if_pos (by omega)] at h
      exact h
    · rw [List.nil_append, vAux] at h
      simp only [Bool.and_eq_true, decide_eq_true_eq] at h
      have := hp (lo, hi) (by simp)
      omega
  | cons b q1 ih =>
    intro pend r hp h
    rw [List.cons_append] at h
    rcases pend with _ | ⟨⟨lo, hi⟩, pend⟩
    · rw [vAux] at h
      by_cases h1 : b ≤ 127
      · rw [if_pos h1] at h
        exact ih [] r (by simp) h
      · rw [if_neg h1] at h
        by_cases h2 : b < 194
        · rw [if_pos h2] at h
          exact Bool.noConfusion h
        · rw [if_neg h2] at h
          by_cases h3 : b ≤ 244
          · rw [if_pos h3] at h
            exact ih (utf8Pending b) r (utf8Pending_lo b) h
          · rw [if_neg h3] at h
            exact Bool.noConfusion h
    · rw [vAux] at h
      simp only [Bool.and_eq_true, decide_eq_true_eq] at h
      exact ih pend r (fun x hx => hp x (by simp [hx])) h.2

theorem validUtf8_suffix (q r : List Nat)
    (h : validUtf8 (q ++ 10 :: r) = true) : validUtf8 r = true :=
  vAux_suffix q [] r (by simp) h

theorem validUtf8_suffix_NN (q r : List Nat)
    (h : validUtf8 ((q ++ [10, 10]) ++ r) = true) : validUtf8 r = true := by
  have h1 : validUtf8 (q ++ 10 :: (10 :: r)) = true := by
    rw [List.append_assoc] at h
    simpa using h
  have h2 := validUtf8_suffix q (10 :: r) h1
  rwa [validUtf8_ascii_cons 10 r (by omega)] at h2

theorem getLastOpt_cons_of_ne_nil {α : Type} (a : α) (l : List α)
    (h : l ≠ []) : (a :: l).getLast? = l.getLast? := by
  cases l with
  | nil => exact absurd rfl h
  | cons b t => rw [List.getLast?_cons_cons]

theorem getLastOpt_append_right {α : Type} (xs ys : List α) (h : ys ≠ []) :
    (xs ++ ys).getLast? = ys.getLast? := by
  induction xs with
  | nil => rfl
  | cons a xs ih =>
    rw [List.cons_append, getLastOpt_cons_of_ne_nil _ _ (by simp [h]), ih]

theorem splitNNCore_ne_nil (l : List Nat) : splitNNCore l ≠ [] := by
  cases l with
  | nil => simp [splitNNCore]
  | cons b0 t =>
    cases t with
    | nil => simp [splitNNCore]
    | cons b1 rest =>
      rw [splitNNCore]
      by_cases hb : b0 = 10 ∧ b1 = 10
      · rw [if_pos hb]; simp
      · rw [if_neg hb]
        rcases h : splitNNCore (b1 :: rest) with _ | ⟨p, ps⟩ <;> simp

theorem splitNNCore_eq_single (l : List Nat) :
    ∀ x, splitNNCore l = [x] → l = x := by
  induction l with
  | nil => intro x h; simp [splitNNCore] at h; exact h.symm
  | cons b0 t ih =>
    cases t with
    | nil =>
      intro x h
      simp [splitNNCore] at h
      exact h
    | cons b1 rest =>
      intro x h
      rw [splitNNCore] at h
      by_cases hb : b0 = 10 ∧ b1 = 10
      · rw [if_pos hb] at h
        simp only [List.cons.injEq] at h
        exact absurd h.2 (splitNNCore_ne_nil rest)
      · rw [if_neg hb] at h
        rcases hsc : splitNNCore (b1 :: rest) with _ | ⟨p, ps⟩
        · rw [hsc] at h
          simp only [List.cons.injEq] at h
          exact absurd hsc (splitNNCore_ne_nil (b1 :: rest))
        · rw [hsc] at h
          simp only [List.cons.injEq] at h
          obtain ⟨hx, hps⟩ := h
          subst hps
          have := ih p (by rw [hsc])
          rw [← hx, ← this]

theorem splitNNCore_append_aux :
    ∀ n P Q, P.length ≤ n → (splitNNCore P).getLast? = some [] →
      splitNNCore (P ++ Q) = (splitNNCore P).dropLast ++ splitNNCore Q := by
  intro n
  induction n with
  | zero =>
    intro P Q hl hlast
    have hP : P = [] := List.length_eq_zero.mp (Nat.le_zero.mp hl)
    subst hP
    simp [splitNNCore]
  | succ n ih =>
    intro P Q hl hlast
    cases P with
    | nil => simp [splitNNCore]
    | cons b0 t =>
      cases t with
      | nil => simp [splitNNCore] at hlast
      | cons b1 rest =>
        by_cases hb : b0 = 10 ∧ b1 = 10
        · obtain ⟨h0, h1⟩ := hb
          subst h0; subst h1
          have hne := splitNNCore_ne_nil rest
          rw [splitNNCore, if_pos ⟨rfl, rfl⟩,
            getLastOpt_cons_of_ne_nil _ _ hne] at hlast
          have hlen : rest.length ≤ n := by
            simp only [List.length_cons] at hl; omega
          have hIH := ih rest Q hlen hlast
          rw [List.cons_append, List.cons_append, splitNNCore,
            (by exact if_pos ⟨rfl, rfl⟩ :
              (if (10 : Nat) = 10 ∧ (10 : Nat) = 10 then
                [] :: splitNNCore (rest ++ Q)
              else
                match splitNNCore (10 :: (rest ++ Q)) with
                | p :: ps => (10 :: p) :: ps
                | [] => [[10]]) = [] :: splitNNCore (rest ++ Q)),
            hIH, splitNNCore,
            (by exact if_pos ⟨rfl, rfl⟩ :
              (if (10 : Nat) = 10 ∧ (10 : Nat) = 10 then
                [] :: splitNNCore rest
              else
                match splitNNCore (10 :: rest) with
                | p :: ps => (10 :: p) :: ps
                | [] => [[10]]) = [] :: splitNNCore rest),
            List.dropLast_cons_of_ne_nil hne, List.cons_append]
        · obtain ⟨p, ps, hsc⟩ :=
            List.exists_cons_of_ne_nil (splitNNCore_ne_nil (b1 :: rest))
          have hscP : splitNNCore (b0 :: b1 :: rest) = (b0 :: p) :: ps := by
            rw [splitNNCore, if_neg hb, hsc]
          rw [hscP] at hlast
          cases ps with
          | nil => simp at hlast
          | cons x xs =>
            rw [List.getLast?_cons_cons] at hlast
            have hlast2 : (splitNNCore (b1 :: rest)).getLast? = some [] := by
              rw [hsc, List.getLast?_cons_cons]
              exact hlast
            have hlen : (b1 :: rest).length ≤ n := by
              simp only [List.length_cons] at hl ⊢; omega
            have hIH := ih (b1 :: rest) Q hlen hlast2
            have hIH2 : splitNNCore ((b1 :: rest) ++ Q) =
                p :: ((x :: xs).dropLast ++ splitNNCore Q) := by
              rw [hIH, hsc,
                List.dropLast_cons_of_ne_nil (by simp : x :: xs ≠ []),
                List.cons_append]
            have hscC : splitNNCore ((b0 :: b1 :: rest) ++ Q) =
                (b0 :: p) :: ((x :: xs).dropLast ++ splitNNCore Q) := by
              rw [List.cons_append, List.cons_append, splitNNCore, if_neg hb,
                ← List.cons_append, hIH2]
            rw [hscC, hscP,
              List.dropLast_cons_of_ne_nil (by simp : x :: xs ≠ []),
              List.cons_append]

theorem splitNNCore_append (P Q : List Nat)
    (h : (splitNNCore P).getLast? = some []) :
    splitNNCore (P ++ Q) = (splitNNCore P).dropLast ++ splitNNCore Q :=
  splitNNCore_append_aux P.length P Q (Nat.le_refl _) h

theorem splitNNCore_last_of_endsNN_aux :
    ∀ n P, P.length ≤ n → (∃ q, P = q ++ [10, 10]) →
      (splitNNCore P).getLast? = some [] ∨
      (splitNNCore P).getLast? = some [10] := by
  intro n
  induction n with
  | zero =>
    intro P hl hP
    obtain ⟨q, hq⟩ := hP
    have hP0 : P = [] := List.length_eq_zero.mp (Nat.le_zero.mp hl)
    subst hP0
    cases q <;> simp at hq
  | succ n ih =>
    intro P hl hP
    obtain ⟨q, hq⟩ := hP
    cases P with
    | nil => cases q <;> simp at hq
    | cons b0 t =>
      cases t with
      | nil =>
        rcases q with _ | ⟨a, q1⟩ <;> simp at hq
      | cons b1 rest =>
        by_cases hb : b0 = 10 ∧ b1 = 10
        · obtain ⟨h0, h1⟩ := hb
          subst h0; subst h1
          have hsceq : splitNNCore (10 :: 10 :: rest) = [] :: splitNNCore rest := by
            rw [splitNNCore,
              (by exact if_pos ⟨rfl, rfl⟩ :
                (if (10 : Nat) = 10 ∧ (10 : Nat) = 10 then
                  [] :: splitNNCore rest
                else
                  match splitNNCore (10 :: rest) with
                  | p :: ps => (10 :: p) :: ps
                  | [] => [[10]]) = [] :: splitNNCore rest)]
          rw [hsceq,
            getLastOpt_cons_of_ne_nil _ _ (splitNNCore_ne_nil rest)]
          rcases q with _ | ⟨a, q1⟩
          · simp only [List.nil_append, List.cons.injEq] at hq
            obtain ⟨_, _, hrest⟩ := hq
            subst hrest
            left; rfl
          · rcases q1 with _ | ⟨a2, q2⟩
            · simp only [List.cons_append, List.nil_append,
                List.cons.injEq] at hq
              obtain ⟨_, _, hrest⟩ := hq
              subst hrest
              right; rfl
            · simp only [List.cons_append, List.cons.injEq] at hq
              obtain ⟨_, _, hrest⟩ := hq
              have hlen : rest.length ≤ n := by
                simp only [List.length_cons] at hl; omega
              exact ih rest hlen ⟨q2, hrest⟩
        · have htail : ∃ q2, b1 :: rest = q2 ++ [10, 10] := by
            rcases q with _ | ⟨a, q1⟩
            · exfalso
              simp only [List.nil_append, List.cons.injEq] at hq
              exact hb ⟨hq.1, hq.2.1⟩
            · simp only [List.cons_append, List.cons.injEq] at hq
              exact ⟨q1, hq.2⟩
          obtain ⟨p, ps, hsc⟩ :=
            List.exists_cons_of_ne_nil (splitNNCore_ne_nil (b1 :: rest))
          have hscP : splitNNCore (b0 :: b1 :: rest) = (b0 :: p) :: ps := by
            rw [splitNNCore, if_neg hb, hsc]
          have hlen : (b1 :: rest).length ≤ n := by
            simp only [List.length_cons] at hl ⊢; omega
          have hIH := ih (b1 :: rest) hlen htail
          rw [hsc] at hIH
          cases ps with
          | nil =>
            exfalso
            have hp : b1 :: rest = p := splitNNCore_eq_single _ p hsc
            simp only [List.getLast?_singleton, Option.some.injEq] at hIH
            rcases hIH with h | h
            · rw [← hp] at h
              exact List.noConfusion h
            · rw [← hp] at h
              obtain ⟨q2, hq2⟩ := htail
              rw [h] at hq2
              rcases q2 with _ | ⟨a2, q3⟩ <;> simp at hq2
          | cons x xs =>
            rw [hscP,
              getLastOpt_cons_of_ne_nil _ _ (by simp : x :: xs ≠ []),
              ← getLastOpt_cons_of_ne_nil p _ (by simp : x :: xs ≠ [])]
            exact hIH

theorem splitNNCore_last_of_endsNN (P : List Nat)
    (h : ∃ q, P = q ++ [10, 10]) :
    (splitNNCore P).getLast? = some [] ∨
    (splitNNCore P).getLast? = some [10] :=
  splitNNCore_last_of_endsNN_aux P.length P (Nat.le_refl _) h

theorem dropLastEmpty_of_last_empty (ps : List (List Nat))
    (h : ps.getLast? = some []) : dropLastEmpty ps = ps.dropLast := by
  unfold dropLastEmpty
  rw [if_pos h]

theorem splitTermNN_append (P Q : List Nat)
    (h : (splitNNCore P).getLast? = some []) :
    splitTermNN (P ++ Q) = splitTermNN P ++ splitTermNN Q := by
  have hQne := splitNNCore_ne_nil Q
  unfold splitTermNN dropLastEmpty
  rw [splitNNCore_append P Q h, if_pos h,
    getLastOpt_append_right _ _ hQne]
  by_cases hQ : (splitNNCore Q).getLast? = some ([] : List Nat)
  · rw [if_pos hQ, if_pos hQ, List.dropLast_append_of_ne_nil _ hQne]
  · rw [if_neg hQ, if_neg hQ]

theorem processRecords_append (xs ys : List (List Nat)) :
    ∀ es, processRecords es (xs ++ ys) =
      (processRecords es xs).bind (fun es2 => processRecords es2 ys) := by
  induction xs with
  | nil => intro es; simp [processRecords]
  | cons rec rest ih =>
    intro es
    rw [List.cons_append, processRecords, processRecords]
    rcases h : processRecord rec with _ | sum
    · simp
    · exact ih _

theorem processRecords_mem (ps : List (List Nat)) :
    ∀ es es2, processRecords es ps = some es2 →
      ∀ p ∈ ps, processRecord p ≠ none := by
  induction ps with
  | nil => intro es es2 _ p hp; exact absurd hp (List.not_mem_nil p)
  | cons rec rest ih =>
    intro es es2 h p hp
    rw [processRecords] at h
    rcases hr : processRecord rec with _ | sum
    · rw [hr] at h; exact Option.noConfusion h
    · rw [hr] at h
      rcases List.mem_cons.mp hp with hp | hp
      · subst hp; rw [hr]; exact fun hc => Option.noConfusion hc
      · exact ih _ es2 h p hp

theorem processRecord_newline : processRecord [10] = none := by decide

theorem sc_last_empty_of_success (P : List Nat)
    (hend : ∃ q, P = q ++ [10, 10]) (es es2 : List Summary)
    (h : processRecords es (splitTermNN P) = some es2) :
    (splitNNCore P).getLast? = some [] := by
  rcases splitNNCore_last_of_endsNN P hend with hl | hl
  · exact hl
  · exfalso
    have hmem : [10] ∈ splitTermNN P := by
      unfold splitTermNN dropLastEmpty
      rw [if_neg (by rw [hl]; simp)]
      exact List.mem_of_getLast?_eq_some hl
    exact processRecords_mem _ es es2 h [10] hmem processRecord_newline

theorem noNN_ten_head (l : List Nat) (h : noNN (10 :: l) = true) :
    l.head? ≠ some 10 := by
  cases l with
  | nil => simp
  | cons d dt =>
    have hd : d ≠ 10 := by
      intro hdeq
      subst hdeq
      simp [noNN] at h
    simp [hd]

theorem writeCore_utf8 (buf : List Nat) (es : List Summary)
    (st : SummaryStream) (h : writeCore buf es = some st) :
    validUtf8 buf = true := by
  unfold writeCore at h
  by_cases hv : validUtf8 buf = true
  · exact hv
  · rw [if_neg hv] at h
    exact Option.noConfusion h

theorem writeCore_nocut (buf : List Nat) (es : List Summary)
    (hv : validUtf8 buf = true) (htl : takeToLastNN buf = none) :
    writeCore buf es = some { buf := buf, entries := es } := by
  unfold writeCore
  rw [if_pos hv]
  rcases htl2 : takeToLastNN buf with _ | ⟨p2, r2⟩
  · rfl
  · rw [htl2] at htl
    exact Option.noConfusion htl

theorem writeCore_cut (buf : List Nat) (es : List Summary) (p r : List Nat)
    (hv : validUtf8 buf = true) (htl : takeToLastNN buf = some (p, r)) :
    writeCore buf es = (processRecords es (splitTermNN p)).map
      (fun es2 => { buf := r, entries := es2 }) := by
  unfold writeCore
  rw [if_pos hv]
  rcases htl2 : takeToLastNN buf with _ | ⟨p2, r2⟩
  · rw [htl2] at htl
    exact Option.noConfusion htl
  · rw [htl2] at htl
    simp only [Option.some.injEq, Prod.mk.injEq] at htl
    obtain ⟨hp, hr⟩ := htl
    subst hp
    subst hr
    rfl

theorem writeCore_noNN (buf : List Nat) (es : List Summary)
    (st : SummaryStream) (h : writeCore buf es = some st) :
    noNN st.buf = true := by
  have hv := writeCore_utf8 buf es st h
  rcases htl : takeToLastNN buf with _ | ⟨p, r⟩
  · rw [writeCore_nocut buf es hv htl] at h
    obtain rfl := Option.some.inj h
    exact (takeToLastNN_eq_none buf).mp htl
  · rw [writeCore_cut buf es p r hv htl] at h
    rcases hpr : processRecords es (splitTermNN p) with _ | es2
    · rw [hpr] at h
      exact Option.noConfusion h
    · rw [hpr, Option.map_some'] at h
      obtain rfl := Option.some.inj h
      obtain ⟨_, _, hnr, _⟩ := takeToLastNN_spec buf p r htl
      exact hnr

theorem write_eq_some (st : SummaryStream) (c : List Nat)
    (st2 : SummaryStream) (n : Nat) :
    st.write c = some (st2, n) ↔
      writeCore (st.buf ++ c) st.entries = some st2 ∧ n = c.length := by
  unfold SummaryStream.write
  rcases h : writeCore (st.buf ++ c) st.entries with _ | stB
  · simp
  · simp only [Option.map_some', Option.some.injEq, Prod.mk.injEq]
    constructor <;> rintro ⟨h1, h2⟩ <;> exact ⟨h1, h2.symm⟩

theorem writeCore_compose (B c1 c2 : List Nat) (es : List Summary)
    (st1 st2 : SummaryStream)
    (h1 : writeCore (B ++ c1) es = some st1)
    (h2 : writeCore (B ++ c1 ++ c2) es = some st2) :
    writeCore (st1.buf ++ c2) st1.entries = some st2 := by
  have hv1 := writeCore_utf8 _ _ _ h1
  have hv2 := writeCore_utf8 _ _ _ h2
  rcases htl1 : takeToLastNN (B ++ c1) with _ | ⟨P, R⟩
  · rw [writeCore_nocut _ es hv1 htl1] at h1
    obtain rfl := Option.some.inj h1
    exact h2
  · obtain ⟨hX, ⟨q0, hq0⟩, hnR, hhdR⟩ := takeToLastNN_spec (B ++ c1) P R htl1
    rw [writeCore_cut _ es P R hv1 htl1] at h1
    rcases hpr1 : processRecords es (splitTermNN P) with _ | E1
    · rw [hpr1] at h1
      exact Option.noConfusion h1
    rw [hpr1, Option.map_some'] at h1
    obtain rfl := Option.some.inj h1
    show writeCore (R ++ c2) E1 = some st2
    have hF : B ++ c1 ++ c2 = P ++ (R ++ c2) := by
      rw [hX, List.append_assoc]
    have hvY : validUtf8 (R ++ c2) = true := by
      apply validUtf8_suffix_NN q0
      rw [← hq0, ← hF]
      exact hv2
    have hendP : ∃ q, P = q ++ [10, 10] := ⟨q0, hq0⟩
    have hlastP : (splitNNCore P).getLast? = some [] :=
      sc_last_empty_of_success P hendP es E1 hpr1
    rcases htl2 : takeToLastNN (R ++ c2) with _ | ⟨Q2, R2⟩
    · have hnY : noNN (R ++ c2) = true := (takeToLastNN_eq_none _).mp htl2
      by_cases hhd : (R ++ c2).head? = some 10
      · exfalso
        have hR : R = [] := by
          cases R with
          | nil => rfl
          | cons rb rt =>
            exfalso
            rw [List.cons_append] at hhd
            have hrb : rb = 10 := by simpa using hhd
            subst hrb
            exact hhdR (by simp)
        subst hR
        rw [List.nil_append] at hhd hnY
        cases c2 with
        | nil => simp at hhd
        | cons cb ct =>
          have hcb : cb = 10 := by simpa using hhd
          subst hcb
          have hnct : noNN ct = true := noNN_cons _ _ hnY
          have hhdct : ct.head? ≠ some 10 := noNN_ten_head ct hnY
          have hFd : B ++ c1 ++ (10 :: ct) = (P ++ [10]) ++ ct := by
            rw [hX]
            simp
          have hndP10 : ∃ q, P ++ [10] = q ++ [10, 10] :=
            ⟨q0 ++ [10], by rw [hq0]; simp⟩
          have htlF : takeToLastNN (B ++ c1 ++ (10 :: ct)) =
              some (P ++ [10], ct) := by
            rw [hFd]
            obtain ⟨q1, hq1⟩ := hndP10
            rw [hq1]
            exact takeToLastNN_construct q1 ct hnct hhdct
          have hsplit : splitTermNN (P ++ [10]) = splitTermNN P ++ [[10]] := by
            rw [splitTermNN_append P [10] hlastP]
            rfl
          have hnone : processRecords es (splitTermNN (P ++ [10])) = none := by
            rw [hsplit, processRecords_append, hpr1]
            simp [processRecords, processRecord_newline]
          rw [writeCore_cut (B ++ c1 ++ (10 :: ct)) es (P ++ [10]) ct hv2 htlF,
            hnone, Option.map_none'] at h2
          exact Option.noConfusion h2
      · have htlF : takeToLastNN (B ++ c1 ++ c2) = some (P, R ++ c2) := by
          rw [hF, hq0]
          exact takeToLastNN_construct q0 (R ++ c2) hnY hhd
        rw [writeCore_cut (B ++ c1 ++ c2) es P (R ++ c2) hv2 htlF, hpr1,
          Option.map_some'] at h2
        rw [writeCore_nocut (R ++ c2) E1 hvY htl2]
        exact h2
    · obtain ⟨hY, ⟨q1, hq1⟩, hnR2, hhd2⟩ := takeToLastNN_spec (R ++ c2) Q2 R2 htl2
      have htlF : takeToLastNN (B ++ c1 ++ c2) = some (P ++ Q2, R2) := by
        have hFd : B ++ c1 ++ c2 = (P ++ Q2) ++ R2 := by
          rw [hF, hY, List.append_assoc]
        rw [hFd]
        obtain ⟨q2, hq2⟩ : ∃ q, P ++ Q2 = q ++ [10, 10] :=
          ⟨P ++ q1, by rw [hq1, List.append_assoc]⟩
        rw [hq2]
        exact takeToLastNN_construct q2 R2 hnR2 hhd2
      have hsplit : splitTermNN (P ++ Q2) = splitTermNN P ++ splitTermNN Q2 :=
        splitTermNN_append P Q2 hlastP
      rw [writeCore_cut (B ++ c1 ++ c2) es (P ++ Q2) R2 hv2 htlF, hsplit,
        processRecords_append, hpr1, Option.some_bind] at h2
      rcases hpr2 : processRecords E1 (splitTermNN Q2) with _ | E2
      · rw [hpr2, Option.map_none'] at h2
        exact Option.noConfusion h2
      · rw [hpr2, Option.map_some'] at h2
        rw [writeCore_cut (R ++ c2) E1 Q2 R2 hvY htl2, hpr2, Option.map_some']
        exact h2

theorem runWrites_writeCore :
    ∀ cs (st st1 st2 : SummaryStream), noNN st.buf = true →
      runWrites st cs = some st1 →
      writeCore (st.buf ++ cs.flatten) st.entries = some st2 → st1 = st2 := by
  intro cs
  induction cs with
  | nil =>
    intro st st1 st2 hn h1 h2
    rw [runWrites] at h1
    obtain rfl := Option.some.inj h1
    rw [List.flatten_nil, List.append_nil] at h2
    have hv := writeCore_utf8 _ _ _ h2
    rw [writeCore_nocut st.buf st.entries hv
      ((takeToLastNN_eq_none _).mpr hn)] at h2
    obtain rfl := Option.some.inj h2
    rfl
  | cons c cs ih =>
    intro st st1 st2 hn h1 h2
    rw [runWrites] at h1
    rcases hw : st.write c with _ | ⟨stA, n⟩
    · rw [hw] at h1
      exact Option.noConfusion h1
    · rw [hw] at h1
      have hwc := ((write_eq_some st c stA n).mp hw).1
      have hnA : noNN stA.buf = true := writeCore_noNN _ _ _ hwc
      rw [List.flatten_cons, ← List.append_assoc] at h2
      have h2A : writeCore (stA.buf ++ cs.flatten) stA.entries = some st2 :=
        writeCore_compose st.buf c cs.flatten st.entries stA st2 hwc h2
      exact ih stA st1 st2 hnA h1 h2A

/-- Claim C1 (counterexample): feeding the same bytes in different chunkings
is observable: the chunked run `A=B\n\n` then `\n` returns with no entries
and `\n` buffered, while the single call on the concatenation panics (the
trailing record `\n` has an empty line with no `=`). -/
theorem chunk_boundary_dependence :
    (runWrites SummaryStream.new [bytes ("A=B\n\n"), bytes ("\n")]).map
        SummaryStream.entries ≠
      (runWrites SummaryStream.new
          [bytes ("A=B\n\n") ++ bytes ("\n")]).map
        SummaryStream.entries := by
  decide

/-- Claim C1 (amended): for every byte stream and every way of splitting it
into chunks, provided the chunked sequence of `write` calls and the single
whole-stream `write` call both return (no panic), the resulting entries
collections are identical. -/
theorem chunk_independence_of_no_panic (chunks : List (List Nat))
    (st1 st2 : SummaryStream)
    (h1 : runWrites SummaryStream.new chunks = some st1)
    (h2 : runWrites SummaryStream.new [chunks.flatten] = some st2) :
    st1.entries = st2.entries := by
  rw [runWrites] at h2
  rcases hw : SummaryStream.new.write chunks.flatten with _ | ⟨stA, n⟩
  · rw [hw] at h2
    exact Option.noConfusion h2
  · rw [hw] at h2
    have hstA : stA = st2 := Option.some.inj h2
    subst hstA
    have hwc := ((write_eq_some _ _ _ _).mp hw).1
    exact congrArg SummaryStream.entries
      (runWrites_writeCore chunks SummaryStream.new st1 stA (by decide) h1 hwc)

set_option maxRecDepth 8000 in
/-- Witness for `chunk_independence_of_no_panic`: one valid record split
across two chunks in the middle of a line yields the same single entry as
feeding the whole stream in one call. -/
theorem chunk_independence_witness :
    (SummaryStream.mk [] [sampleSummary]).entries =
      (SummaryStream.mk [] [sampleSummary]).entries :=
  chunk_independence_of_no_panic
    [(recSized ++ bytes ("\n\n")).take 40,
      (recSized ++ bytes ("\n\n")).drop 40]
    (SummaryStream.mk [] [sampleSummary])
    (SummaryStream.mk [] [sampleSummary])
    (by decide) (by decide)

end PkgsrcSummary